import Mathlib

/-!
Verification of the wemux in-process message bus (donsprallo/wemux).

The Python sources are shallowly embedded as pure Lean functions:
mutation of shared message objects becomes explicit state passing, an
exception becomes an `Option`/`Except` value, and the calls a routine
makes (middleware hooks, handler invocations) are logged in an explicit
trace list so that statements about call order can be made.
-/

namespace Wemux

/-! ## Event stream (src/wemux/stream.py, class EventStream)

`EventStream` keeps an internal FIFO list `_events` plus an abstract
external source given by `_read_events` / `_write_event`.  The source is
modelled as a pair of pure functions over a source state `σ`. -/

/-- External source of an event stream: `readEvents` models
`_read_events` (returns currently available events and the advanced
source state), `writeEvent` models `_write_event`. -/
structure StreamSource (Ev σ : Type) where
  readEvents : σ → List Ev × σ
  writeEvent : σ → Ev → σ

/-- State of an `EventStream`: the internal queue `_events` and the
external source state. -/
structure StreamState (Ev σ : Type) where
  events : List Ev
  src : σ
  deriving DecidableEq

/-- Embeds `EventStream.push_event`: first `_write_event`, then append to
the internal queue. -/
def pushEvent {Ev σ : Type} (S : StreamSource Ev σ) (s : StreamState Ev σ)
    (e : Ev) : StreamState Ev σ :=
  ⟨s.events ++ [e], S.writeEvent s.src e⟩

/-- Embeds `EventStream.__next__`: if the internal queue is empty, raise
`StopIteration` (here: `none`) without touching the external source;
otherwise poll `_read_events`, append the returned batch, and pop the
front element.  The returned triple also reports the batch that was read,
so that executions can log every enqueue. -/
def nextEvent {Ev σ : Type} (S : StreamSource Ev σ) (s : StreamState Ev σ) :
    Option (Ev × List Ev × StreamState Ev σ) :=
  match s.events with
  | [] => none
  | e :: t =>
    let rd := S.readEvents s.src
    some (e, rd.1, ⟨t ++ rd.1, rd.2⟩)

/-- An interaction with the stream: a `push_event` call or one iteration
step (`__next__`). -/
inductive StreamOp (Ev : Type) where
  | push (e : Ev)
  | step
  deriving DecidableEq

/-- Runs a sequence of stream operations.  Returns the final stream
state, the list of yielded events (in yield order) and the list of all
events enqueued during the run (pushes and external reads, in the order
they were appended to the internal queue). -/
def execOps {Ev σ : Type} (S : StreamSource Ev σ) :
    List (StreamOp Ev) → StreamState Ev σ →
    StreamState Ev σ × List Ev × List Ev
  | [], s => (s, [], [])
  | StreamOp.push e :: ops, s =>
    let r := execOps S ops (pushEvent S s e)
    (r.1, r.2.1, e :: r.2.2)
  | StreamOp.step :: ops, s =>
    match nextEvent S s with
    | none => execOps S ops s
    | some (e, rd, s2) =>
      let r := execOps S ops s2
      (r.1, e :: r.2.1, rd ++ r.2.2)

/-- The external source used by `src/wemux/stream.py`'s
`InMemoryEventStream`: `_read_events` returns `[]` and `_write_event`
does nothing. -/
def inMemorySource (Ev : Type) : StreamSource Ev Unit :=
  ⟨fun s => ([], s), fun s _ => s⟩

/-- An external source whose state is a list of pending batches; each
poll removes and returns the first batch.  Used to make polling
observable. -/
def batchSource (Ev : Type) : StreamSource Ev (List (List Ev)) :=
  ⟨fun batches =>
      match batches with
      | [] => ([], [])
      | b :: rest => (b, rest),
    fun batches _ => batches⟩

end Wemux

namespace Wemux

/-- Conservation of the stream queue along any run: the initial queue
followed by everything enqueued equals everything yielded followed by the
final queue. -/
theorem execOps_conservation {Ev σ : Type} (S : StreamSource Ev σ)
    (ops : List (StreamOp Ev)) (s : StreamState Ev σ) :
    s.events ++ (execOps S ops s).2.2 =
      (execOps S ops s).2.1 ++ (execOps S ops s).1.events := by
  induction ops generalizing s with
  | nil => simp [execOps]
  | cons op ops ih =>
    cases op with
    | push e =>
      have h := ih (pushEvent S s e)
      simp only [execOps]
      simp only [pushEvent] at h
      simp only [List.append_assoc] at h ⊢
      simpa using h
    | step =>
      cases hs : s.events with
      | nil =>
        have h := ih s
        simp only [execOps, nextEvent, hs]
        simpa [hs] using h
      | cons e t =>
        have h := ih ⟨t ++ (S.readEvents s.src).1, (S.readEvents s.src).2⟩
        simp only [execOps, nextEvent, hs]
        simp only [List.append_assoc] at h ⊢
        simpa using h

/-- C7: over any interleaving of `push_event` calls and iteration steps,
the queue is conserved: initial queue ++ enqueued = yielded ++ final
queue.  Each push contributes exactly one entry to the enqueue log, so
each pushed instance is yielded at most once per push; yields form an
initial segment of the enqueue order, so pushes are yielded in FIFO
order and a yielded event is removed from the queue for good; an event
pushed mid-run sits in the enqueue log and hence is either already
yielded or still in the final queue, where subsequent steps of the same
iteration observe it. -/
theorem c7_stream_fifo_conservation {Ev σ : Type} (S : StreamSource Ev σ)
    (ops : List (StreamOp Ev)) (s : StreamState Ev σ) :
    s.events ++ (execOps S ops s).2.2 =
      (execOps S ops s).2.1 ++ (execOps S ops s).1.events :=
  execOps_conservation S ops s

/-- C9: an iteration step on an empty internal queue stops immediately
(`none`), for every external source and source state, and as an executed
operation it leaves the source state unchanged and enqueues nothing — so
externally available events alone never resume an exhausted iteration.
The source is polled only when the internal queue is non-empty: with a
batch source holding batch `b`, a step on queue `e :: t` consumes `b`
and appends it behind `t`. -/
theorem c9_empty_stream_stops_without_poll {Ev σ : Type}
    (S : StreamSource Ev σ) (src : σ) (e : Ev) (t : List Ev)
    (b : List Ev) (rest : List (List Ev)) :
    nextEvent S ⟨[], src⟩ = none ∧
    execOps S [StreamOp.step] ⟨[], src⟩ = (⟨[], src⟩, [], []) ∧
    nextEvent (batchSource Ev) ⟨e :: t, b :: rest⟩ =
      some (e, b, ⟨t ++ b, rest⟩) :=
  ⟨rfl, rfl, rfl⟩

/-! ## Handler chain (src/wemux/handler.py, class Handler)

`Handler.next` forwards a message to the optional successor `_next`.
Only the calls `next` itself makes on the successor matter here, so the
successor is modelled as a record of its two methods and `handlerNext`
logs each call it performs.  Note the source has no `else`: when an
exception is given it calls the successor's `error` and then *still*
falls through to `return self._next.handle(msg)`. -/

/-- A call observed on the successor node. -/
inductive NodeCall (Msg Exc : Type) where
  | errorCall (m : Msg) (e : Exc)
  | handleCall (m : Msg)
  deriving DecidableEq

/-- The successor node: its `handle` and `error` methods.  `handle` may
return `none` (Python `None`). -/
structure HNode (Msg Res Exc : Type) where
  handle : Msg → Option Res
  error : Msg → Exc → Unit

/-- Embeds `Handler.next(msg, ex)` for a node whose `_next` is `succ`:
no successor returns `None`; otherwise, if an exception is given the
successor's `error` is called, and then (unconditionally in the source)
the successor's `handle` is called and its result returned. -/
def handlerNext {Msg Res Exc : Type} (succ : Option (HNode Msg Res Exc))
    (msg : Msg) (ex : Option Exc) : List (NodeCall Msg Exc) × Option Res :=
  match succ with
  | none => ([], none)
  | some s =>
    match ex with
    | some e =>
      let _ := s.error msg e
      ([NodeCall.errorCall msg e, NodeCall.handleCall msg], s.handle msg)
    | none => ([NodeCall.handleCall msg], s.handle msg)

/-- C2 (counter-evidence): evaluating `Handler.next` on a node with a
successor and an exception shows the successor's `error` *and* its
`handle` are both invoked — the source lacks the `else` its docstring
(and the sibling `middleware.py` implementation) describe.  With no
successor the call is a no-op returning `None`, for any exception. -/
theorem c2_next_with_error_also_calls_handle :
    handlerNext (some ⟨fun m => some (m + 1), fun _ _ => ()⟩ :
        Option (HNode Nat Nat Nat)) 5 (some 9) =
      ([NodeCall.errorCall 5 9, NodeCall.handleCall 5], some 6) ∧
    handlerNext (none : Option (HNode Nat Nat Nat)) 5 (some 9) = ([], none) := by
  exact ⟨rfl, rfl⟩

/-! ## Middleware and command dispatch
(src/wemux/dispatcher.py, class LocalCommandDispatcher.dispatch;
src/wemux/messagebus.py has the line-for-line identical
LocalCommandHandlerStrategy.__call__)

A middleware exposes `before`/`after`/`error` hooks (the shape the
dispatcher invokes, as in messagebus.py's `Middleware`).  A hook is
observational but may raise, which is modelled by returning
`some exc`.  The dispatcher logs every hook and handler call it makes,
together with the message value the call receives. -/

/-- A middleware: each hook receives the message, and `error` also the
exception; a returned `some e` models the hook itself raising `e`. -/
structure Middleware (M Exc : Type) where
  before : M → Option Exc
  after : M → Option Exc
  error : M → Exc → Option Exc

/-- A call made by the command dispatcher: hook `i` of the middleware
list on message `m` (and exception `e` for error hooks), or the single
handler invocation. -/
inductive Call (M Exc : Type) where
  | beforeHook (i : Nat) (m : M)
  | afterHook (i : Nat) (m : M)
  | errorHook (i : Nat) (m : M) (e : Exc)
  | handleCall (m : M)
  deriving DecidableEq

/-- Runs `for middleware in self._middlewares: middleware.before(m)`
starting at index `i`; stops at the first hook that raises.  Returns the
trace of hook calls and the raised exception, if any. -/
def runBefores {M Exc : Type} (mws : List (Middleware M Exc)) (i : Nat)
    (m : M) : List (Call M Exc) × Option Exc :=
  match mws with
  | [] => ([], none)
  | mw :: rest =>
    match mw.before m with
    | some e => ([Call.beforeHook i m], some e)
    | none =>
      let r := runBefores rest (i + 1) m
      (Call.beforeHook i m :: r.1, r.2)

/-- Runs the `after` hooks, like `runBefores`. -/
def runAfters {M Exc : Type} (mws : List (Middleware M Exc)) (i : Nat)
    (m : M) : List (Call M Exc) × Option Exc :=
  match mws with
  | [] => ([], none)
  | mw :: rest =>
    match mw.after m with
    | some e => ([Call.afterHook i m], some e)
    | none =>
      let r := runAfters rest (i + 1) m
      (Call.afterHook i m :: r.1, r.2)

/-- Runs the `error` hooks in the `except` clause with exception `e`.
In Python an exception raised by an error hook propagates at once and
the final `raise ex` is never reached, so the result is that new
exception; if every hook returns, the original `e` is re-raised. -/
def runErrors {M Exc : Type} (mws : List (Middleware M Exc)) (i : Nat)
    (m : M) (e : Exc) : List (Call M Exc) × Exc :=
  match mws with
  | [] => ([], e)
  | mw :: rest =>
    match mw.error m e with
    | some e2 => ([Call.errorHook i m e], e2)
    | none =>
      let r := runErrors rest (i + 1) m e
      (Call.errorHook i m e :: r.1, r.2)

/-- Expected trace of `n` non-raising before hooks from index `i` on
message `m`. -/
def beforeTrace {M Exc : Type} (i n : Nat) (m : M) : List (Call M Exc) :=
  match n with
  | 0 => []
  | Nat.succ k => Call.beforeHook i m :: beforeTrace (i + 1) k m

/-- Expected trace of `n` non-raising after hooks from index `i`. -/
def afterTrace {M Exc : Type} (i n : Nat) (m : M) : List (Call M Exc) :=
  match n with
  | 0 => []
  | Nat.succ k => Call.afterHook i m :: afterTrace (i + 1) k m

/-- Expected trace of `n` non-raising error hooks from index `i`, each
receiving message `m` and exception `e`. -/
def errorTrace {M Exc : Type} (i n : Nat) (m : M) (e : Exc) :
    List (Call M Exc) :=
  match n with
  | 0 => []
  | Nat.succ k => Call.errorHook i m e :: errorTrace (i + 1) k m e

/-- A command handler: `handle` receives the command and returns the
(possibly mutated) command together with either a result or a raised
exception; on a raise the returned command carries the partial
mutations made before raising. -/
structure CmdHandler (Cmd Exc Res : Type) where
  handle : Cmd → Cmd × Except Exc Res

/-- Outcome of `LocalCommandDispatcher.dispatch`: a normal return, a
`HandlerNotFoundError`, or a propagated exception; each carries the
final state of the command object. -/
inductive DispatchOutcome (Cmd Exc Res : Type) where
  | ok (res : Res) (cmd : Cmd)
  | notFound (cmd : Cmd)
  | raised (e : Exc) (cmd : Cmd)
  deriving DecidableEq

/-- Embeds `LocalCommandDispatcher.dispatch` (identically
`LocalCommandHandlerStrategy.__call__`): look up the command's runtime
type in the handler map; if absent raise `HandlerNotFoundError`;
otherwise run the before hooks, the handler, and the after hooks inside
a `try`, and on any exception run every error hook and re-raise. -/
def dispatchCommand {K Cmd Exc Res : Type} [BEq K]
    (mws : List (Middleware Cmd Exc))
    (handlers : List (K × CmdHandler Cmd Exc Res))
    (cmdType : Cmd → K) (cmd : Cmd) :
    DispatchOutcome Cmd Exc Res × List (Call Cmd Exc) :=
  match List.lookup (cmdType cmd) handlers with
  | none => (DispatchOutcome.notFound cmd, [])
  | some h =>
    let pB := runBefores mws 0 cmd
    match pB.2 with
    | some e =>
      let pE := runErrors mws 0 cmd e
      (DispatchOutcome.raised pE.2 cmd, pB.1 ++ pE.1)
    | none =>
      let pH := h.handle cmd
      match pH.2 with
      | Except.error e =>
        let pE := runErrors mws 0 pH.1 e
        (DispatchOutcome.raised pE.2 pH.1,
          pB.1 ++ Call.handleCall cmd :: pE.1)
      | Except.ok res =>
        let pA := runAfters mws 0 pH.1
        match pA.2 with
        | some e =>
          let pE := runErrors mws 0 pH.1 e
          (DispatchOutcome.raised pE.2 pH.1,
            pB.1 ++ Call.handleCall cmd :: (pA.1 ++ pE.1))
        | none =>
          (DispatchOutcome.ok res pH.1,
            pB.1 ++ Call.handleCall cmd :: pA.1)

lemma runBefores_of_none {M Exc : Type} {mws : List (Middleware M Exc)}
    {m : M} (h : ∀ mw ∈ mws, mw.before m = none) (i : Nat) :
    runBefores mws i m = (beforeTrace i mws.length m, none) := by
  induction mws generalizing i with
  | nil => simp [runBefores, beforeTrace]
  | cons mw rest ih =>
    have h0 : mw.before m = none := h mw (by simp)
    have hr : ∀ mw ∈ rest, mw.before m = none := fun x hx => h x (by simp [hx])
    simp [runBefores, h0, ih hr, beforeTrace]

lemma runAfters_of_none {M Exc : Type} {mws : List (Middleware M Exc)}
    {m : M} (h : ∀ mw ∈ mws, mw.after m = none) (i : Nat) :
    runAfters mws i m = (afterTrace i mws.length m, none) := by
  induction mws generalizing i with
  | nil => simp [runAfters, afterTrace]
  | cons mw rest ih =>
    have h0 : mw.after m = none := h mw (by simp)
    have hr : ∀ mw ∈ rest, mw.after m = none := fun x hx => h x (by simp [hx])
    simp [runAfters, h0, ih hr, afterTrace]

lemma runErrors_of_none {M Exc : Type} {mws : List (Middleware M Exc)}
    {m : M} {e : Exc} (h : ∀ mw ∈ mws, mw.error m e = none) (i : Nat) :
    runErrors mws i m e = (errorTrace i mws.length m e, e) := by
  induction mws generalizing i with
  | nil => simp [runErrors, errorTrace]
  | cons mw rest ih =>
    have h0 : mw.error m e = none := h mw (by simp)
    have hr : ∀ mw ∈ rest, mw.error m e = none := fun x hx => h x (by simp [hx])
    simp [runErrors, h0, ih hr, errorTrace]

lemma runBefores_raise {M Exc : Type} {pre : List (Middleware M Exc)}
    {mw0 : Middleware M Exc} {post : List (Middleware M Exc)} {m : M}
    {e : Exc} (hpre : ∀ mw ∈ pre, mw.before m = none)
    (h0 : mw0.before m = some e) (i : Nat) :
    runBefores (pre ++ mw0 :: post) i m =
      (beforeTrace i (pre.length + 1) m, some e) := by
  induction pre generalizing i with
  | nil => simp [runBefores, h0, beforeTrace]
  | cons mw rest ih =>
    have hmw : mw.before m = none := hpre mw (by simp)
    have hr : ∀ x ∈ rest, x.before m = none := fun x hx => hpre x (by simp [hx])
    simp [runBefores, hmw, ih hr, beforeTrace]

/-- C3: a command whose runtime type has no entry in the handler map
makes dispatch raise `HandlerNotFoundError` carrying the command; the
trace is empty (no handler call, no before/after hook, no error hook)
and the command is returned unmutated. -/
theorem c3_handler_not_found {K Cmd Exc Res : Type} [BEq K]
    (mws : List (Middleware Cmd Exc))
    (handlers : List (K × CmdHandler Cmd Exc Res))
    (cmdType : Cmd → K) (cmd : Cmd)
    (h : List.lookup (cmdType cmd) handlers = none) :
    dispatchCommand mws handlers cmdType cmd =
      (DispatchOutcome.notFound cmd, []) := by
  unfold dispatchCommand
  rw [h]

/-- C3 witness: an empty handler map at a concrete command. -/
theorem c3_handler_not_found_case :
    dispatchCommand ([] : List (Middleware Nat Nat))
        ([] : List (Nat × CmdHandler Nat Nat Nat)) (fun n => n) 0 =
      (DispatchOutcome.notFound 0, []) :=
  c3_handler_not_found [] [] (fun n => n) 0 rfl

/-- C5: with a registered handler whose `handle` succeeds and
non-raising hooks, dispatch runs every before hook in order on the
incoming command, invokes the handler exactly once, runs every after
hook in order on the mutated command, and returns exactly the handler's
result with the handler's mutation of the command. -/
theorem c5_command_success_path {K Cmd Exc Res : Type} [BEq K]
    (mws : List (Middleware Cmd Exc))
    (handlers : List (K × CmdHandler Cmd Exc Res))
    (cmdType : Cmd → K) (cmd cmd2 : Cmd) (hd : CmdHandler Cmd Exc Res)
    (res : Res)
    (hl : List.lookup (cmdType cmd) handlers = some hd)
    (hh : hd.handle cmd = (cmd2, Except.ok res))
    (hb : ∀ mw ∈ mws, mw.before cmd = none)
    (ha : ∀ mw ∈ mws, mw.after cmd2 = none) :
    dispatchCommand mws handlers cmdType cmd =
      (DispatchOutcome.ok res cmd2,
        beforeTrace 0 mws.length cmd ++
          Call.handleCall cmd :: afterTrace 0 mws.length cmd2) := by
  unfold dispatchCommand
  rw [hl]
  simp only [runBefores_of_none hb 0, hh, runAfters_of_none ha 0]

/-- C5 witness: one trivial middleware and a handler returning `42`
after bumping the command from `0` to `1`. -/
theorem c5_command_success_path_case :
    dispatchCommand [(⟨fun _ => none, fun _ => none, fun _ _ => none⟩ :
          Middleware Nat Nat)]
        [(0, (⟨fun c => (c + 1, Except.ok 42)⟩ : CmdHandler Nat Nat Nat))]
        (fun n => n) 0 =
      (DispatchOutcome.ok 42 1,
        beforeTrace 0 1 0 ++ Call.handleCall 0 :: afterTrace 0 1 1) := by
  exact c5_command_success_path _ _ _ 0 1 _ 42 rfl rfl
    (by intro mw hmw; simp at hmw; subst hmw; rfl)
    (by intro mw hmw; simp at hmw; subst hmw; rfl)

/-- C6: with a registered handler whose `handle` raises `e` (after
possibly mutating the command to `cmd2`) and non-raising hooks, dispatch
runs every before hook, invokes the handler once, then runs every error
hook in order — each receiving the (partially mutated) command and the
original exception `e` — and re-raises that same `e`; the command keeps
the handler's partial mutations. -/
theorem c6_command_error_path {K Cmd Exc Res : Type} [BEq K]
    (mws : List (Middleware Cmd Exc))
    (handlers : List (K × CmdHandler Cmd Exc Res))
    (cmdType : Cmd → K) (cmd cmd2 : Cmd) (hd : CmdHandler Cmd Exc Res)
    (e : Exc)
    (hl : List.lookup (cmdType cmd) handlers = some hd)
    (hh : hd.handle cmd = (cmd2, Except.error e))
    (hb : ∀ mw ∈ mws, mw.before cmd = none)
    (he : ∀ mw ∈ mws, mw.error cmd2 e = none) :
    dispatchCommand mws handlers cmdType cmd =
      (DispatchOutcome.raised e cmd2,
        beforeTrace 0 mws.length cmd ++
          Call.handleCall cmd :: errorTrace 0 mws.length cmd2 e) := by
  unfold dispatchCommand
  rw [hl]
  simp only [runBefores_of_none hb 0, hh, runErrors_of_none he 0]

/-- C6 witness: the handler bumps the command to `7` and raises `3`;
one trivial middleware observes the error. -/
theorem c6_command_error_path_case :
    dispatchCommand [(⟨fun _ => none, fun _ => none, fun _ _ => none⟩ :
          Middleware Nat Nat)]
        [(0, (⟨fun c => (c + 7, Except.error 3)⟩ : CmdHandler Nat Nat Nat))]
        (fun n => n) 0 =
      (DispatchOutcome.raised 3 7,
        beforeTrace 0 1 0 ++ Call.handleCall 0 :: errorTrace 0 1 7 3) := by
  exact c6_command_error_path _ _ _ 0 7 _ 3 rfl rfl
    (by intro mw hmw; simp at hmw; subst hmw; rfl)
    (by intro mw hmw; simp at hmw; subst hmw; rfl)

/-- C10: with a registered handler, if before hooks up to index `k` are
fine but hook `k` raises `e`, the handler is never invoked and no after
hook runs: the trace holds exactly the first `k + 1` before hooks
followed by every error hook (each receiving `e`), the same `e`
propagates, and the command is unmutated by the handler. -/
theorem c10_before_hook_failure {K Cmd Exc Res : Type} [BEq K]
    (pre : List (Middleware Cmd Exc)) (mw0 : Middleware Cmd Exc)
    (post : List (Middleware Cmd Exc))
    (handlers : List (K × CmdHandler Cmd Exc Res))
    (cmdType : Cmd → K) (cmd : Cmd) (hd : CmdHandler Cmd Exc Res) (e : Exc)
    (hl : List.lookup (cmdType cmd) handlers = some hd)
    (hpre : ∀ mw ∈ pre, mw.before cmd = none)
    (h0 : mw0.before cmd = some e)
    (he : ∀ mw ∈ pre ++ mw0 :: post, mw.error cmd e = none) :
    dispatchCommand (pre ++ mw0 :: post) handlers cmdType cmd =
      (DispatchOutcome.raised e cmd,
        beforeTrace 0 (pre.length + 1) cmd ++
          errorTrace 0 (pre ++ mw0 :: post).length cmd e) := by
  unfold dispatchCommand
  rw [hl]
  simp only [runBefores_raise hpre h0 0, runErrors_of_none he 0]

/-- C10 witness: the second of two middlewares raises `5` from its
before hook over a handler that would have bumped the command. -/
theorem c10_before_hook_failure_case :
    dispatchCommand
        [(⟨fun _ => none, fun _ => none, fun _ _ => none⟩ :
            Middleware Nat Nat),
          (⟨fun _ => some 5, fun _ => none, fun _ _ => none⟩ :
            Middleware Nat Nat)]
        [(0, (⟨fun c => (c + 1, Except.ok 42)⟩ : CmdHandler Nat Nat Nat))]
        (fun n => n) 0 =
      (DispatchOutcome.raised 5 0,
        beforeTrace 0 2 0 ++ errorTrace 0 2 0 5) := by
  exact c10_before_hook_failure
    [⟨fun _ => none, fun _ => none, fun _ _ => none⟩]
    ⟨fun _ => some 5, fun _ => none, fun _ _ => none⟩ [] _ _ 0 _ 5 rfl
    (by intro mw hmw; simp at hmw; subst hmw; rfl) rfl
    (by intro mw hmw; simp at hmw; rcases hmw with h | h <;> subst h <;> rfl)

/-! ## Event dispatch
(src/wemux/dispatcher.py, class LocalEventDispatcher.dispatch;
src/wemux/messagebus.py has the line-for-line identical
LocalEventHandlerStrategy.__call__)

The dispatcher loops over the listeners; for each it runs the before
hooks, the listener's `handle`, and the after hooks inside a `try`, and
on any exception runs the error hooks and moves on to the next
listener.  An exception raised by an error hook itself would escape the
whole loop, which the model keeps as an escape value. -/

/-- An event listener: `handle` returns the (possibly mutated) event and
`some e` when it raises `e`; on a raise the returned event carries the
partial mutations. -/
structure Listener (Ev Exc : Type) where
  handle : Ev → Ev × Option Exc

/-- A call made by the event dispatcher: middleware hook `mi` inside the
round for listener `li`, or the invocation of listener `li` itself; each
records the event value it receives. -/
inductive ECall (Ev Exc : Type) where
  | beforeHook (li mi : Nat) (ev : Ev)
  | afterHook (li mi : Nat) (ev : Ev)
  | errorHook (li mi : Nat) (ev : Ev) (e : Exc)
  | listenerCall (li : Nat) (ev : Ev)
  deriving DecidableEq

/-- Before hooks of listener round `li`, from middleware index `mi`. -/
def eRunBefores {Ev Exc : Type} (mws : List (Middleware Ev Exc))
    (li mi : Nat) (ev : Ev) : List (ECall Ev Exc) × Option Exc :=
  match mws with
  | [] => ([], none)
  | mw :: rest =>
    match mw.before ev with
    | some e => ([ECall.beforeHook li mi ev], some e)
    | none =>
      let r := eRunBefores rest li (mi + 1) ev
      (ECall.beforeHook li mi ev :: r.1, r.2)

/-- After hooks of listener round `li`. -/
def eRunAfters {Ev Exc : Type} (mws : List (Middleware Ev Exc))
    (li mi : Nat) (ev : Ev) : List (ECall Ev Exc) × Option Exc :=
  match mws with
  | [] => ([], none)
  | mw :: rest =>
    match mw.after ev with
    | some e => ([ECall.afterHook li mi ev], some e)
    | none =>
      let r := eRunAfters rest li (mi + 1) ev
      (ECall.afterHook li mi ev :: r.1, r.2)

/-- Error hooks of listener round `li` with exception `e`; a raised
exception of a hook escapes the dispatch loop (`some e2`). -/
def eRunErrors {Ev Exc : Type} (mws : List (Middleware Ev Exc))
    (li mi : Nat) (ev : Ev) (e : Exc) :
    List (ECall Ev Exc) × Option Exc :=
  match mws with
  | [] => ([], none)
  | mw :: rest =>
    match mw.error ev e with
    | some e2 => ([ECall.errorHook li mi ev e], some e2)
    | none =>
      let r := eRunErrors rest li (mi + 1) ev e
      (ECall.errorHook li mi ev e :: r.1, r.2)

/-- Expected trace of `n` non-raising before hooks in round `li`. -/
def beforeETrace {Ev Exc : Type} (li mi n : Nat) (ev : Ev) :
    List (ECall Ev Exc) :=
  match n with
  | 0 => []
  | Nat.succ k => ECall.beforeHook li mi ev :: beforeETrace li (mi + 1) k ev

/-- Expected trace of `n` non-raising after hooks in round `li`. -/
def afterETrace {Ev Exc : Type} (li mi n : Nat) (ev : Ev) :
    List (ECall Ev Exc) :=
  match n with
  | 0 => []
  | Nat.succ k => ECall.afterHook li mi ev :: afterETrace li (mi + 1) k ev

/-- Expected trace of `n` non-raising error hooks in round `li`. -/
def errorETrace {Ev Exc : Type} (li mi n : Nat) (ev : Ev) (e : Exc) :
    List (ECall Ev Exc) :=
  match n with
  | 0 => []
  | Nat.succ k =>
    ECall.errorHook li mi ev e :: errorETrace li (mi + 1) k ev e

/-- One iteration of the listener loop: the `try` body (before hooks,
`listener.handle(event)`, after hooks) and the `except` clause (error
hooks).  Returns the event state after the round, the trace, and the
exception escaping the whole dispatch if an error hook raised. -/
def dispatchListener {Ev Exc : Type} (mws : List (Middleware Ev Exc))
    (li : Nat) (l : Listener Ev Exc) (ev : Ev) :
    Ev × List (ECall Ev Exc) × Option Exc :=
  match (eRunBefores mws li 0 ev).2 with
  | some e =>
    let pE := eRunErrors mws li 0 ev e
    (ev, (eRunBefores mws li 0 ev).1 ++ pE.1, pE.2)
  | none =>
    let pH := l.handle ev
    match pH.2 with
    | some e =>
      let pE := eRunErrors mws li 0 pH.1 e
      (pH.1,
        (eRunBefores mws li 0 ev).1 ++ ECall.listenerCall li ev :: pE.1,
        pE.2)
    | none =>
      match (eRunAfters mws li 0 pH.1).2 with
      | some e =>
        let pE := eRunErrors mws li 0 pH.1 e
        (pH.1,
          (eRunBefores mws li 0 ev).1 ++ ECall.listenerCall li ev ::
            ((eRunAfters mws li 0 pH.1).1 ++ pE.1),
          pE.2)
      | none =>
        (pH.1,
          (eRunBefores mws li 0 ev).1 ++ ECall.listenerCall li ev ::
            (eRunAfters mws li 0 pH.1).1,
          none)

/-- The listener loop of `LocalEventDispatcher.dispatch` from listener
index `li`: each round threads the shared event object; an exception
escaping a round (from an error hook) aborts the remaining listeners. -/
def dispatchEventAux {Ev Exc : Type} (mws : List (Middleware Ev Exc))
    (li : Nat) (ls : List (Listener Ev Exc)) (ev : Ev) :
    Ev × List (ECall Ev Exc) × Option Exc :=
  match ls with
  | [] => (ev, [], none)
  | l :: rest =>
    let p := dispatchListener mws li l ev
    match p.2.2 with
    | some esc => (p.1, p.2.1, some esc)
    | none =>
      let q := dispatchEventAux mws (li + 1) rest p.1
      (q.1, p.2.1 ++ q.2.1, q.2.2)

/-- Embeds `LocalEventDispatcher.dispatch` (identically
`LocalEventHandlerStrategy.__call__`). -/
def dispatchEvent {Ev Exc : Type} (mws : List (Middleware Ev Exc))
    (ls : List (Listener Ev Exc)) (ev : Ev) :
    Ev × List (ECall Ev Exc) × Option Exc :=
  dispatchEventAux mws 0 ls ev

/-- The expected full trace of the listener loop when no middleware hook
raises: per listener, in order, the before hooks, the listener call, and
then — when that listener raised — every error hook with its exception,
otherwise every after hook; the event state threads through the
listeners' mutations. -/
def expectedRounds {Ev Exc : Type} (n li : Nat)
    (ls : List (Listener Ev Exc)) (ev : Ev) : List (ECall Ev Exc) :=
  match ls with
  | [] => []
  | l :: rest =>
    let p := l.handle ev
    (beforeETrace li 0 n ev ++ ECall.listenerCall li ev ::
        (match p.2 with
         | some e => errorETrace li 0 n p.1 e
         | none => afterETrace li 0 n p.1)) ++
      expectedRounds n (li + 1) rest p.1

lemma eRunBefores_of_none {Ev Exc : Type} {mws : List (Middleware Ev Exc)}
    {ev : Ev} (h : ∀ mw ∈ mws, mw.before ev = none) (li mi : Nat) :
    eRunBefores mws li mi ev = (beforeETrace li mi mws.length ev, none) := by
  induction mws generalizing mi with
  | nil => simp [eRunBefores, beforeETrace]
  | cons mw rest ih =>
    have h0 : mw.before ev = none := h mw (by simp)
    have hr : ∀ x ∈ rest, x.before ev = none := fun x hx => h x (by simp [hx])
    simp [eRunBefores, h0, ih hr, beforeETrace]

lemma eRunAfters_of_none {Ev Exc : Type} {mws : List (Middleware Ev Exc)}
    {ev : Ev} (h : ∀ mw ∈ mws, mw.after ev = none) (li mi : Nat) :
    eRunAfters mws li mi ev = (afterETrace li mi mws.length ev, none) := by
  induction mws generalizing mi with
  | nil => simp [eRunAfters, afterETrace]
  | cons mw rest ih =>
    have h0 : mw.after ev = none := h mw (by simp)
    have hr : ∀ x ∈ rest, x.after ev = none := fun x hx => h x (by simp [hx])
    simp [eRunAfters, h0, ih hr, afterETrace]

lemma eRunErrors_of_none {Ev Exc : Type} {mws : List (Middleware Ev Exc)}
    {ev : Ev} {e : Exc} (h : ∀ mw ∈ mws, mw.error ev e = none)
    (li mi : Nat) :
    eRunErrors mws li mi ev e = (errorETrace li mi mws.length ev e, none) := by
  induction mws generalizing mi with
  | nil => simp [eRunErrors, errorETrace]
  | cons mw rest ih =>
    have h0 : mw.error ev e = none := h mw (by simp)
    have hr : ∀ x ∈ rest, x.error ev e = none := fun x hx => h x (by simp [hx])
    simp [eRunErrors, h0, ih hr, errorETrace]

lemma dispatchListener_of_tame {Ev Exc : Type}
    {mws : List (Middleware Ev Exc)}
    (hb : ∀ mw ∈ mws, ∀ x : Ev, mw.before x = none)
    (he : ∀ mw ∈ mws, ∀ (x : Ev) (e : Exc), mw.error x e = none)
    (ha : ∀ mw ∈ mws, ∀ x : Ev, mw.after x = none)
    (li : Nat) (l : Listener Ev Exc) (ev : Ev) :
    dispatchListener mws li l ev =
      ((l.handle ev).1,
        beforeETrace li 0 mws.length ev ++ ECall.listenerCall li ev ::
          (match (l.handle ev).2 with
           | some e => errorETrace li 0 mws.length (l.handle ev).1 e
           | none => afterETrace li 0 mws.length (l.handle ev).1),
        none) := by
  have hb2 : ∀ mw ∈ mws, mw.before ev = none := fun mw hmw => hb mw hmw ev
  unfold dispatchListener
  rw [eRunBefores_of_none hb2]
  cases hH : (l.handle ev).2 with
  | some e =>
    have he2 : ∀ mw ∈ mws, mw.error (l.handle ev).1 e = none :=
      fun mw hmw => he mw hmw (l.handle ev).1 e
    simp [hH, eRunErrors_of_none he2]
  | none =>
    have ha2 : ∀ mw ∈ mws, mw.after (l.handle ev).1 = none :=
      fun mw hmw => ha mw hmw (l.handle ev).1
    simp [hH, eRunAfters_of_none ha2]

lemma dispatchEventAux_of_tame {Ev Exc : Type}
    {mws : List (Middleware Ev Exc)}
    (hb : ∀ mw ∈ mws, ∀ x : Ev, mw.before x = none)
    (he : ∀ mw ∈ mws, ∀ (x : Ev) (e : Exc), mw.error x e = none)
    (ha : ∀ mw ∈ mws, ∀ x : Ev, mw.after x = none)
    (ls : List (Listener Ev Exc)) (li : Nat) (ev : Ev) :
    dispatchEventAux mws li ls ev =
      (ls.foldl (fun x l => (l.handle x).1) ev,
        expectedRounds mws.length li ls ev, none) := by
  induction ls generalizing li ev with
  | nil => simp [dispatchEventAux, expectedRounds]
  | cons l rest ih =>
    simp only [dispatchEventAux, dispatchListener_of_tame hb he ha li l ev,
      ih (li + 1), expectedRounds, List.foldl_cons]

/-- C4: with non-raising middleware hooks, event dispatch processes
every listener in registration order, threading the shared event through
each listener's mutation; a raising listener gets the error hooks run in
its round (with its exception) and dispatch continues with the next
listener; no exception escapes to the caller (escape component `none`).
The trace `expectedRounds` spells out each round: before hooks, the
listener call, then error hooks exactly when that listener raised,
otherwise after hooks. -/
theorem c4_event_dispatch_isolation {Ev Exc : Type}
    (mws : List (Middleware Ev Exc)) (ls : List (Listener Ev Exc)) (ev : Ev)
    (hb : ∀ mw ∈ mws, ∀ x : Ev, mw.before x = none)
    (he : ∀ mw ∈ mws, ∀ (x : Ev) (e : Exc), mw.error x e = none)
    (ha : ∀ mw ∈ mws, ∀ x : Ev, mw.after x = none) :
    dispatchEvent mws ls ev =
      (ls.foldl (fun x l => (l.handle x).1) ev,
        expectedRounds mws.length 0 ls ev, none) :=
  dispatchEventAux_of_tame hb he ha ls 0 ev

/-- C4 witness: one observing middleware, first listener raises `7`,
second increments the event — the second still runs and nothing
escapes. -/
theorem c4_event_dispatch_isolation_case :
    dispatchEvent [(⟨fun _ => none, fun _ => none, fun _ _ => none⟩ :
          Middleware Nat Nat)]
        [(⟨fun x => (x, some 7)⟩ : Listener Nat Nat), ⟨fun x => (x + 1, none)⟩]
        0 =
      (1, expectedRounds 1 0
        [(⟨fun x => (x, some 7)⟩ : Listener Nat Nat), ⟨fun x => (x + 1, none)⟩]
        0, none) := by
  exact c4_event_dispatch_isolation _ _ 0
    (by intro mw hmw x; simp at hmw; subst hmw; rfl)
    (by intro mw hmw x e; simp at hmw; subst hmw; rfl)
    (by intro mw hmw x; simp at hmw; subst hmw; rfl)

/-! ## Message bus listener registry
(src/wemux/messagebus.py, MessageBus.add_listener / MessageBus.emit)

`_event_listeners` is a `defaultdict(list)` mapping an event type to its
listener list, modelled as a total function defaulting to `[]`;
`add_listener` appends, `emit` dispatches the event to the list for its
runtime type. -/

/-- The listener registry of `MessageBus`. -/
structure Bus (K Ev Exc : Type) where
  eventListeners : K → List (Listener Ev Exc)

/-- A fresh bus: `defaultdict(list)` yields `[]` for every key. -/
def emptyBus (K Ev Exc : Type) : Bus K Ev Exc := ⟨fun _ => []⟩

/-- Embeds `MessageBus.add_listener`: appends the listener to the list
for `key`, leaving every other key untouched. -/
def addListener {K Ev Exc : Type} [DecidableEq K] (bus : Bus K Ev Exc)
    (key : K) (l : Listener Ev Exc) : Bus K Ev Exc :=
  ⟨fun k => if k = key then bus.eventListeners k ++ [l]
            else bus.eventListeners k⟩

/-- Registers a whole list of listeners for `key`, one `add_listener`
call per element, in order. -/
def registerAll {K Ev Exc : Type} [DecidableEq K] (bus : Bus K Ev Exc)
    (key : K) (ls : List (Listener Ev Exc)) : Bus K Ev Exc :=
  ls.foldl (fun b l => addListener b key l) bus

/-- Embeds `MessageBus.emit`: dispatch the event to the listener list
registered for its runtime type. -/
def emit {K Ev Exc : Type} (mws : List (Middleware Ev Exc))
    (bus : Bus K Ev Exc) (evType : Ev → K) (ev : Ev) :
    Ev × List (ECall Ev Exc) × Option Exc :=
  dispatchEvent mws (bus.eventListeners (evType ev)) ev

/-- The listener indices invoked along a trace, in call order. -/
def listenerCalls {Ev Exc : Type} (tr : List (ECall Ev Exc)) : List Nat :=
  tr.filterMap fun c =>
    match c with
    | ECall.listenerCall li _ => some li
    | _ => none

/-- The indices `i, i+1, ..., i+n-1`. -/
def idxRange (i n : Nat) : List Nat :=
  match n with
  | 0 => []
  | Nat.succ k => i :: idxRange (i + 1) k

/-- Cumulative mutation of an event by exactly the listeners that did
not raise, applied in registration order. -/
def applyAll {Ev Exc : Type} (ls : List (Listener Ev Exc)) (ev : Ev) : Ev :=
  match ls with
  | [] => ev
  | l :: rest =>
    match l.handle ev with
    | (ev2, none) => applyAll rest ev2
    | (_, some _) => applyAll rest ev

lemma registerAll_eventListeners {K Ev Exc : Type} [DecidableEq K] (k : K)
    (ls : List (Listener Ev Exc)) :
    ∀ bus : Bus K Ev Exc,
      (registerAll bus k ls).eventListeners k =
        bus.eventListeners k ++ ls := by
  induction ls with
  | nil => intro bus; simp [registerAll]
  | cons l rest ih =>
    intro bus
    have h : registerAll bus k (l :: rest) =
        registerAll (addListener bus k l) k rest := by
      simp [registerAll]
    rw [h, ih (addListener bus k l)]
    simp [addListener]

lemma foldl_handle_eq_applyAll {Ev Exc : Type}
    {ls : List (Listener Ev Exc)}
    (hraise : ∀ l ∈ ls, ∀ x : Ev,
      ((l.handle x).2).isSome = true → (l.handle x).1 = x) :
    ∀ ev : Ev, ls.foldl (fun x l => (l.handle x).1) ev = applyAll ls ev := by
  induction ls with
  | nil => intro ev; simp [applyAll]
  | cons l rest ih =>
    intro ev
    have hr : ∀ x ∈ rest, ∀ y : Ev,
        ((x.handle y).2).isSome = true → (x.handle y).1 = y :=
      fun x hx => hraise x (by simp [hx])
    cases hl : l.handle ev with
    | mk ev2 o =>
      cases o with
      | none => simp [applyAll, hl, List.foldl_cons, ih hr]
      | some e =>
        have h1 : ev2 = ev := by
          have := hraise l (by simp) ev
          rw [hl] at this
          simpa using this
        subst h1
        simp [applyAll, hl, List.foldl_cons, ih hr]

lemma listenerCalls_beforeETrace {Ev Exc : Type} (li n : Nat) (ev : Ev) :
    ∀ mi, listenerCalls (@beforeETrace Ev Exc li mi n ev) = [] := by
  induction n with
  | zero => intro mi; simp [beforeETrace, listenerCalls]
  | succ k ih =>
    intro mi
    simp [beforeETrace, listenerCalls] at ih ⊢
    exact ih (mi + 1)

lemma listenerCalls_afterETrace {Ev Exc : Type} (li n : Nat) (ev : Ev) :
    ∀ mi, listenerCalls (@afterETrace Ev Exc li mi n ev) = [] := by
  induction n with
  | zero => intro mi; simp [afterETrace, listenerCalls]
  | succ k ih =>
    intro mi
    simp [afterETrace, listenerCalls] at ih ⊢
    exact ih (mi + 1)

lemma listenerCalls_errorETrace {Ev Exc : Type} (li n : Nat) (ev : Ev)
    (e : Exc) :
    ∀ mi, listenerCalls (errorETrace li mi n ev e) = [] := by
  induction n with
  | zero => intro mi; simp [errorETrace, listenerCalls]
  | succ k ih =>
    intro mi
    simp [errorETrace, listenerCalls] at ih ⊢
    exact ih (mi + 1)

lemma listenerCalls_expectedRounds {Ev Exc : Type} (n : Nat)
    (ls : List (Listener Ev Exc)) :
    ∀ (li : Nat) (ev : Ev),
      listenerCalls (expectedRounds n li ls ev) = idxRange li ls.length := by
  induction ls with
  | nil => intro li ev; simp [expectedRounds, listenerCalls, idxRange]
  | cons l rest ih =>
    intro li ev
    simp only [expectedRounds, listenerCalls, List.filterMap_append,
      List.filterMap_cons]
    cases hl : (l.handle ev).2 with
    | none =>
      simp only [hl]
      have h1 := @listenerCalls_beforeETrace Ev Exc li n ev 0
      have h2 := @listenerCalls_afterETrace Ev Exc li n (l.handle ev).1 0
      have h3 := ih (li + 1) (l.handle ev).1
      unfold listenerCalls at h1 h2 h3
      rw [h1, h2, h3]
      simp [idxRange]
    | some e =>
      simp only [hl]
      have h1 := @listenerCalls_beforeETrace Ev Exc li n ev 0
      have h2 := listenerCalls_errorETrace li n (l.handle ev).1 e 0
      have h3 := ih (li + 1) (l.handle ev).1
      unfold listenerCalls at h1 h2 h3
      rw [h1, h2, h3]
      simp [idxRange]

/-- C8: registering listeners appends (never replaces): after
registering `ls` for key `k` on a fresh bus, the listener list for `k`
is exactly `ls` in registration order.  Emitting an event of that type
(here without middleware) invokes the listeners in registration order —
`listenerCalls` of the trace is `0, 1, ..., N-1` — and, when raising
listeners mutate nothing, the final event carries the cumulative
mutation of exactly the listeners that did not raise; nothing escapes. -/
theorem c8_listener_registration_order {K Ev Exc : Type} [DecidableEq K]
    (k : K) (ls : List (Listener Ev Exc)) (evType : Ev → K) (ev : Ev)
    (hk : evType ev = k)
    (hraise : ∀ l ∈ ls, ∀ x : Ev,
      ((l.handle x).2).isSome = true → (l.handle x).1 = x) :
    (registerAll (emptyBus K Ev Exc) k ls).eventListeners k = ls ∧
    emit [] (registerAll (emptyBus K Ev Exc) k ls) evType ev =
      (applyAll ls ev, expectedRounds 0 0 ls ev, none) ∧
    listenerCalls (expectedRounds 0 0 ls ev) =
      idxRange 0 ls.length := by
  have hreg : (registerAll (emptyBus K Ev Exc) k ls).eventListeners k = ls := by
    rw [registerAll_eventListeners k ls (emptyBus K Ev Exc)]
    simp [emptyBus]
  refine ⟨hreg, ?_, listenerCalls_expectedRounds 0 ls 0 ev⟩
  unfold emit
  rw [hk, hreg]
  have h := @dispatchEventAux_of_tame Ev Exc ([] : List (Middleware Ev Exc))
    (by intro mw hmw; simp at hmw) (by intro mw hmw; simp at hmw)
    (by intro mw hmw; simp at hmw) ls 0 ev
  unfold dispatchEvent
  rw [h, foldl_handle_eq_applyAll hraise ev]
  rfl

/-- C8 witness: two listeners for key `0`, the first raising `7` without
mutating, the second incrementing the event. -/
theorem c8_listener_registration_order_case :
    (registerAll (emptyBus Nat Nat Nat) 0
        [⟨fun x => (x, some 7)⟩, ⟨fun x => (x + 1, none)⟩]).eventListeners 0 =
      [⟨fun x => (x, some 7)⟩, ⟨fun x => (x + 1, none)⟩] ∧
    emit [] (registerAll (emptyBus Nat Nat Nat) 0
        [⟨fun x => (x, some 7)⟩, ⟨fun x => (x + 1, none)⟩]) (fun n => n) 0 =
      (applyAll [⟨fun x => (x, some 7)⟩, ⟨fun x => (x + 1, none)⟩] 0,
        expectedRounds 0 0
          [⟨fun x => (x, some 7)⟩, ⟨fun x => (x + 1, none)⟩] 0, none) ∧
    listenerCalls (expectedRounds 0 0
        [(⟨fun x => (x, some 7)⟩ : Listener Nat Nat),
          ⟨fun x => (x + 1, none)⟩] 0) =
      idxRange 0 2 := by
  exact c8_listener_registration_order 0 _ (fun n => n) 0 rfl
    (by
      intro l hl x h
      simp at hl
      rcases hl with h1 | h1 <;> subst h1 <;> simp_all)

/-! ## Message bus drain cycle

The stream-integrated `MessageBus` (constructor injecting a shared
`EventStream`, `register_command_handler`, `register_event_handler`, the
`_emit_events` drain loop and `create_in_memory_message_bus`) is
exercised by the repository's unit tests but is not part of the source
snapshot, which only holds the strategy-based draft without a stream.
It is therefore modelled from the spec below. -/

/-- Modelled from the spec: an event listener of the stream-integrated
bus (missing from the source snapshot); handling an event may push
follow-up events onto the shared stream, returned here as a list in push
order. -/
structure PushListener (Ev : Type) where
  handle : Ev → List Ev

/-- Modelled from the spec: a command handler of the stream-integrated
bus (missing from the source snapshot); handling a command produces the
result and the events it pushed onto the shared stream, in push
order. -/
structure StreamCmdHandler (Cmd Res Ev : Type) where
  handle : Cmd → Res × List Ev

/-- Modelled from the spec: one drain iteration dispatches the popped
event via the event dispatcher to that event type's listener list, each
listener in order appending its pushes to the shared stream. -/
def drainStep {K Ev : Type} (reg : K → List (PushListener Ev))
    (evType : Ev → K) (ev : Ev) : List Ev :=
  (reg (evType ev)).foldl (fun acc l => acc ++ l.handle ev) []

/-- Modelled from the spec: the `_emit_events` drain loop (missing from
the source snapshot) — repeatedly pop the next event from the shared
stream and dispatch it against its type's listener list, until the
stream is exhausted; listeners may push further events mid-drain, which
the stream iterator observes.  `fuel` bounds the number of iterations
(the bus does not detect push cycles); the result is the list of
dispatched events in dispatch order and the queue left when fuel ran
out. -/
def drain {K Ev : Type} (reg : K → List (PushListener Ev))
    (evType : Ev → K) : Nat → List Ev → List Ev × List Ev
  | 0, queue => ([], queue)
  | _ + 1, [] => ([], [])
  | fuel + 1, e :: rest =>
    let r := drain reg evType fuel (rest ++ drainStep reg evType e)
    (e :: r.1, r.2)

/-- Modelled from the spec: `MessageBus.handle` of the stream-integrated
bus (missing from the source snapshot) — dispatch the command to its
registered handler via the command dispatcher; on success drain the
shared event stream holding the handler's pushes; return the handler's
result.  `none` models `HandlerNotFoundError`. -/
def busHandle {CK K Cmd Res Ev : Type} [BEq CK]
    (chandlers : List (CK × StreamCmdHandler Cmd Res Ev))
    (reg : K → List (PushListener Ev)) (cmdType : Cmd → CK)
    (evType : Ev → K) (fuel : Nat) (cmd : Cmd) :
    Option (Res × List Ev × List Ev) :=
  match List.lookup (cmdType cmd) chandlers with
  | none => none
  | some h =>
    let p := h.handle cmd
    let r := drain reg evType fuel p.2
    some (p.1, r.1, r.2)

lemma drain_conservation {K Ev : Type} (reg : K → List (PushListener Ev))
    (evType : Ev → K) :
    ∀ (fuel : Nat) (q : List Ev),
      (drain reg evType fuel q).1 ++ (drain reg evType fuel q).2 =
        q ++ ((drain reg evType fuel q).1.map (drainStep reg evType)).flatten := by
  intro fuel
  induction fuel with
  | zero => intro q; simp [drain]
  | succ f ih =>
    intro q
    cases q with
    | nil => simp [drain]
    | cons e rest =>
      have h := ih (rest ++ drainStep reg evType e)
      simp only [drain, List.map_cons, List.flatten, List.cons_append,
        List.cons.injEq, true_and]
      rw [h]
      simp [List.append_assoc]

/-- C1: for every handler map, listener registry, and command whose
runtime type has a registered handler, whenever the drain loop exhausts
the shared stream within the given fuel (handling succeeds), `handle`
dispatches the command via the command dispatcher, then drains the
stream to exhaustion (empty leftover queue), and returns exactly the
handler's result; moreover the dispatch log is exactly the events the
handler pushed followed, in FIFO order, by every event pushed by the
listeners of each dispatched event — so a cascade E1, E2 pushed by the
handler and E3 pushed by a listener of E2 is dispatched, in that
relative order, before `handle` returns. -/
theorem c1_handle_drains_cascade {CK K Cmd Res Ev : Type} [BEq CK]
    (chandlers : List (CK × StreamCmdHandler Cmd Res Ev))
    (reg : K → List (PushListener Ev)) (cmdType : Cmd → CK)
    (evType : Ev → K) (fuel : Nat) (cmd : Cmd)
    (h : StreamCmdHandler Cmd Res Ev) (res : Res) (pushed : List Ev)
    (hl : List.lookup (cmdType cmd) chandlers = some h)
    (hh : h.handle cmd = (res, pushed))
    (hex : (drain reg evType fuel pushed).2 = []) :
    busHandle chandlers reg cmdType evType fuel cmd =
      some (res, (drain reg evType fuel pushed).1, []) ∧
    (drain reg evType fuel pushed).1 =
      pushed ++
        ((drain reg evType fuel pushed).1.map (drainStep reg evType)).flatten := by
  constructor
  · unfold busHandle
    rw [hl]
    simp only [hh, hex]
  · have hc := drain_conservation reg evType fuel pushed
    rw [hex] at hc
    simpa using hc

/-- The listener registry of the spec's cascading scenario: event `2`
has one listener pushing event `3`; no other event has listeners. -/
def cascadeReg : Nat → List (PushListener Nat) :=
  fun k => if k = 2 then [⟨fun _ => [3]⟩] else []

/-- C1 witness: the spec's own scenario — the registered handler pushes
events `1` and `2`, a listener of `2` pushes `3` — `handle` returns the
handler's result `42` after dispatching exactly `1`, `2`, `3` in that
order, with the stream exhausted before returning. -/
theorem c1_handle_drains_cascade_case :
    busHandle [(0, (⟨fun _ => (42, [1, 2])⟩ : StreamCmdHandler Nat Nat Nat))]
        cascadeReg (fun n => n) (fun n => n) 10 0 =
      some (42, [1, 2, 3], []) ∧
    ([1, 2, 3] : List Nat) =
      [1, 2] ++ (([1, 2, 3] : List Nat).map (drainStep cascadeReg
        (fun n => n))).flatten := by
  have h := c1_handle_drains_cascade
    [(0, (⟨fun _ => (42, [1, 2])⟩ : StreamCmdHandler Nat Nat Nat))]
    cascadeReg (fun n => n) (fun n => n) 10 0
    ⟨fun _ => (42, [1, 2])⟩ 42 [1, 2] rfl rfl rfl
  exact h

end Wemux
